import Mathlib

/-!
A shallow embedding of the `byte-parser` cursor library and proofs about it.

The library is a family of composable cursors over an immutable byte buffer:
two leaf cursors (`Parser` over a byte slice, `StrParser` over a str) and the
wrappers `IgnoreByte`, `WhileByteFn`, `Stop`, `RecordIter` and
`SplitOnByteIter`, all implementing the `ParseIterator` trait
(`parse_iterator.rs`).  A cursor chain is modelled as an inductive `Cursor`
whose mutable state (`StateOf`) and point-in-time type (`PitOf`) are computed
by recursion on the chain, mirroring the per-implementation associated
`PointInTime` type of the trait.  Bytes are `Nat` (only equality of bytes is
ever used by the code, so `u8` values embed faithfully), positions are
`Option Nat` exactly like `Position(Option<usize>)` in `position.rs`.

The `consume` loops of the source (`while let Some(_) = self.advance() {}`)
are embedded with an explicit iteration bound of `slice.length + 1`: on the
states the library can construct (where every `SplitOnByteIter` pit position
agrees with its inner cursor's position — `new` establishes this and every
operation preserves it), each successful `advance` strictly increases the
leaf position, which ranges over at most `slice.length + 1` values, so the
bound is always sufficient and the bounded loop agrees with the source
loop; the proofs below characterize each loop's exact stopping state.
-/

namespace ByteParser

abbrev Byte := Nat

/-- `Position(Option<usize>)` from `position.rs`; `None` is the
distinguished null value before the first byte. -/
abbrev Position := Option Nat

/-- `Position::null()`. -/
def Position.null : Position := none

/-- `impl Add<usize> for Position`: `Some(o) => o + other`,
`None => other - 1` (from `position.rs`). -/
def Position.add (p : Position) (other : Nat) : Nat :=
  match p with
  | some o => o + other
  | none => other - 1

@[simp] theorem Position.add_some (k n : Nat) :
    Position.add (some k) n = k + n := rfl

@[simp] theorem Position.add_null (n : Nat) :
    Position.add Position.null n = n - 1 := rfl

/-- `SplitOnBytePointInTime` from `split_on_byte.rs`: raw position, the
`byte_reached` flag and the optional `record_pos` used to exclude the split
byte from recorded spans. -/
structure SplitPit where
  pos : Position
  byteReached : Bool
  recordPos : Option Position
deriving DecidableEq, Repr

/-- A cursor instance of the library: one of the two leaves, or a wrapper
holding its (exclusively borrowed) inner cursor.  The `record` constructor
carries the anchor `Position` that `RecordIter::new` captured at
construction; `mkRecord` below builds it the way `ParseIterator::record`
does. -/
inductive Cursor where
  | parser (sl : List Byte)
  | strParser (sl : List Byte)
  | ignoreByte (b : Byte) (inner : Cursor)
  | whileByteFn (f : Byte → Bool) (inner : Cursor)
  | stop (inner : Cursor)
  | record (anchor : Position) (inner : Cursor)
  | splitIter (b : Byte) (inner : Cursor)

/-- The mutable state of a cursor chain.  Each leaf owns a
`ParserPointInTime` (just a `Position`); all wrappers except
`SplitOnByteIter` keep no state of their own; `SplitOnByteIter` adds its
own `SplitOnBytePointInTime`. -/
@[reducible] def StateOf : Cursor → Type
  | .parser _ => Position
  | .strParser _ => Position
  | .ignoreByte _ i => StateOf i
  | .whileByteFn _ i => StateOf i
  | .stop i => StateOf i
  | .record _ i => StateOf i
  | .splitIter _ i => SplitPit × StateOf i

/-- The associated `PointInTime` type of each implementation: the leaves use
`ParserPointInTime` (a `Position`), pass-through wrappers reuse the inner
type, `SplitOnByteIter` uses `SplitOnBytePointInTime`. -/
@[reducible] def PitOf : Cursor → Type
  | .parser _ => Position
  | .strParser _ => Position
  | .ignoreByte _ i => PitOf i
  | .whileByteFn _ i => PitOf i
  | .stop i => PitOf i
  | .record _ i => PitOf i
  | .splitIter _ _ => SplitPit

/-- `PointInTime::pos` of each pit type (`pit.rs`, `split_on_byte.rs`). -/
def pitPos : (c : Cursor) → PitOf c → Position
  | .parser _, p => p
  | .strParser _, p => p
  | .ignoreByte _ i, p => pitPos i p
  | .whileByteFn _ i, p => pitPos i p
  | .stop i, p => pitPos i p
  | .record _ i, p => pitPos i p
  | .splitIter _ _, p => p.pos

/-- `PointInTime::set_pos` of each pit type. -/
def pitSetPos : (c : Cursor) → PitOf c → Position → PitOf c
  | .parser _, _, pos => pos
  | .strParser _, _, pos => pos
  | .ignoreByte _ i, p, pos => pitSetPos i p pos
  | .whileByteFn _ i, p, pos => pitSetPos i p pos
  | .stop i, p, pos => pitSetPos i p pos
  | .record _ i, p, pos => pitSetPos i p pos
  | .splitIter _ _, p, pos => { p with pos := pos }

/-- `PointInTime::record_pos`: the default implementation returns `pos`;
`SplitOnBytePointInTime` overrides it to prefer its `record_pos` field. -/
def pitRecordPos : (c : Cursor) → PitOf c → Position
  | .parser _, p => p
  | .strParser _, p => p
  | .ignoreByte _ i, p => pitRecordPos i p
  | .whileByteFn _ i, p => pitRecordPos i p
  | .stop i, p => pitRecordPos i p
  | .record _ i, p => pitRecordPos i p
  | .splitIter _ _, p =>
    match p.recordPos with
    | some o => o
    | none => p.pos

/-- `ParseIterator::slice`: every wrapper delegates to its inner cursor, the
leaves return the underlying buffer. -/
def slice : Cursor → List Byte
  | .parser sl => sl
  | .strParser sl => sl
  | .ignoreByte _ i => slice i
  | .whileByteFn _ i => slice i
  | .stop i => slice i
  | .record _ i => slice i
  | .splitIter _ i => slice i

/-- `ParseIterator::pit`. -/
def pit : (c : Cursor) → StateOf c → PitOf c
  | .parser _, s => s
  | .strParser _, s => s
  | .ignoreByte _ i, s => pit i s
  | .whileByteFn _ i, s => pit i s
  | .stop i, s => pit i s
  | .record _ i, s => pit i s
  | .splitIter _ _, s => s.1

/-- `ParseIterator::restore_pit`.  `SplitOnByteIter::restore_pit` must
resynchronize the inner cursor: it takes the inner cursor's current pit,
force-sets its position to the restored one and restores that into the
inner cursor (`split_on_byte.rs`, `restore_pit`). -/
def restorePit : (c : Cursor) → StateOf c → PitOf c → StateOf c
  | .parser _, _, p => p
  | .strParser _, _, p => p
  | .ignoreByte _ i, s, p => restorePit i s p
  | .whileByteFn _ i, s, p => restorePit i s p
  | .stop i, s, p => restorePit i s p
  | .record _ i, s, p => restorePit i s p
  | .splitIter _ i, s, p =>
    (p, restorePit i s.2 (pitSetPos i (pit i s.2) p.pos))

/-- `ParseIterator::recorder`: the leaves have none, `RecordIter` returns
its own `Recorder` anchor, every other wrapper delegates. -/
def recorder : Cursor → Option Position
  | .parser _ => none
  | .strParser _ => none
  | .ignoreByte _ i => recorder i
  | .whileByteFn _ i => recorder i
  | .stop i => recorder i
  | .record a _ => some a
  | .splitIter _ i => recorder i

/-- `ParseIterator::is_valid_utf8`: `false` for `Parser`, `true` for
`StrParser`, and every wrapper returns `T::is_valid_utf8()` unchanged. -/
def validUtf8 : Cursor → Bool
  | .parser _ => false
  | .strParser _ => true
  | .ignoreByte _ i => validUtf8 i
  | .whileByteFn _ i => validUtf8 i
  | .stop i => validUtf8 i
  | .record _ i => validUtf8 i
  | .splitIter _ i => validUtf8 i

/-- `slice.get(pos)` after `pit().pos().opt()?`: byte lookup at a
`Position`. -/
def sliceGet (sl : List Byte) (p : Position) : Option Byte :=
  p.bind fun k => sl[k]?

/-- `ParseIterator::byte`: the byte at the current position, if any. -/
def byte (c : Cursor) (s : StateOf c) : Option Byte :=
  sliceGet (slice c) (pitPos c (pit c s))

/-- `ParseIterator::next` expressed against an explicit `advance` function
(used to define the wrappers whose `advance` itself calls `next` on the
inner cursor): advance, then return the current byte. -/
def nextWith (i : Cursor) (adv : StateOf i → Option Unit × StateOf i)
    (s : StateOf i) : Option Byte × StateOf i :=
  match adv s with
  | (none, s') => (none, s')
  | (some _, s') => (byte i s', s')

/-- `WhileByteFn::advance` (from `while_byte_fn.rs`) against an explicit
inner `advance`: snapshot the inner pit, `next` on the inner cursor; on a
produced byte test `f`, keeping the advance on success and restoring the
snapshot on failure; if the inner cursor was exhausted the `?` operator
reports exhaustion without restoring. -/
def whileAdv (i : Cursor) (adv : StateOf i → Option Unit × StateOf i)
    (f : Byte → Bool) (s : StateOf i) : Option Unit × StateOf i :=
  let p := pit i s
  match nextWith i adv s with
  | (none, s') => (none, s')
  | (some x, s') => if f x then (some (), s') else (none, restorePit i s' p)

/-- `ParseIterator::consume` (`while let Some(_) = self.advance() {}`) as a
bounded loop; the bound is always instantiated with `slice.length + 1`,
which is sufficient because every successful `advance` strictly increases
the leaf position (see the module docstring). -/
def loopConsume {σ : Type} (adv : σ → Option Unit × σ) : Nat → σ → σ
  | 0, s => s
  | fuel + 1, s =>
    match adv s with
    | (some _, s') => loopConsume adv fuel s'
    | (none, s') => s'

/-- `ParseIterator::advance` of every cursor in the family.
`Parser`/`StrParser`: step to `pos + 1` while inside the buffer.
`IgnoreByte::advance`: first drain a run of the ignored byte with
`while_byte_fn(|&b| b == byte).consume()`, then one real inner advance.
`WhileByteFn::advance`: see `whileAdv`.  `Stop::advance`: always exhausted.
`RecordIter::advance`: delegate.  `SplitOnByteIter::advance`: if
`byte_reached` report exhausted at once; otherwise remember the inner
position, advance the inner cursor (propagating exhaustion), copy the new
inner position into the own pit and compare the current byte with the split
byte: on a hit set `byte_reached`, stash the pre-advance position in
`record_pos` and report exhausted, otherwise clear `record_pos` and report
success.  (The final `match … | none` arm models the state at the
`self.byte().unwrap()` panic; it is unreachable whenever the inner cursor
advances to a valid buffer index, as the leaves always do.) -/
def advance : (c : Cursor) → StateOf c → Option Unit × StateOf c
  | .parser sl, p =>
    let n := Position.add p 1
    if n < sl.length then (some (), (some n : Position)) else (none, p)
  | .strParser sl, p =>
    let n := Position.add p 1
    if n < sl.length then (some (), (some n : Position)) else (none, p)
  | .ignoreByte b i, s =>
    advance i
      (loopConsume (whileAdv i (advance i) (fun x => x == b))
        ((slice i).length + 1) s)
  | .whileByteFn f i, s => whileAdv i (advance i) f s
  | .stop _, s => (none, s)
  | .record _ i, s => advance i s
  | .splitIter b i, s =>
    if s.1.byteReached then (none, s)
    else
      let start := pitPos i (pit i s.2)
      match advance i s.2 with
      | (none, si') => (none, (s.1, si'))
      | (some _, si') =>
        let np := pitPos i (pit i si')
        match sliceGet (slice i) np with
        | some x =>
          if x == b then
            (none, ({ pos := np, byteReached := true, recordPos := some start }, si'))
          else
            (some (), ({ pos := np, byteReached := s.1.byteReached, recordPos := none }, si'))
        | none =>
          (none, ({ pos := np, byteReached := s.1.byteReached, recordPos := s.1.recordPos }, si'))

/-- `ParseIterator::next`: advance, then return the current byte. -/
def next (c : Cursor) (s : StateOf c) : Option Byte × StateOf c :=
  nextWith c (advance c) s

/-- `ParseIterator::peek`: save the pit, `next`, restore the pit, return
the byte. -/
def peek (c : Cursor) (s : StateOf c) : Option Byte × StateOf c :=
  let p := pit c s
  let r := next c s
  (r.1, restorePit c r.2 p)

/-- `ParseIterator::consume` at the always-sufficient bound. -/
def consumeC (c : Cursor) (s : StateOf c) : StateOf c :=
  loopConsume (advance c) ((slice c).length + 1) s

/-- `RecordIter::new`: capture `inner.pit().record_pos()` as the anchor. -/
def mkRecord (i : Cursor) (s : StateOf i) : Cursor :=
  .record (pitRecordPos i (pit i s)) i

/-- `ParseIterator::to_slice`: `slice[recorder.pos() + 1 .. pit().record_pos() + 1]`.
`none` models the panics (no active recorder, or an out-of-range span). -/
def toSlice (c : Cursor) (s : StateOf c) : Option (List Byte) :=
  match recorder c with
  | none => none
  | some r =>
    let start := Position.add r 1
    let stopAt := Position.add (pitRecordPos c (pit c s)) 1
    if start ≤ stopAt ∧ stopAt ≤ (slice c).length then
      some (((slice c).drop start).take (stopAt - start))
    else none

/-- `ParseIterator::expect_byte_fn`: `self.next().expect_byte_fn(f)` with
`ExpectByte for Option<u8>` (`expect_byte.rs`): `Ok` on a produced byte
passing `f`, otherwise `Err` carrying the produced byte or `None` when
exhausted. -/
def expectByteFn (c : Cursor) (f : Byte → Bool) (s : StateOf c) :
    Except (Option Byte) Unit × StateOf c :=
  let r := next c s
  match r.1 with
  | some x => (if f x then .ok () else .error (some x), r.2)
  | none => (.error none, r.2)

/-- `ParseIterator::expect_byte`: `expect_byte_fn(|b| b == byte)`. -/
def expectByte (c : Cursor) (b : Byte) (s : StateOf c) :
    Except (Option Byte) Unit × StateOf c :=
  expectByteFn c (fun x => x == b) s

/-- `SplitOnByteIter::new`: pit starts at the inner position with
`byte_reached = true` (so the first call does not skip the first
iteration) and no `record_pos`. -/
def splitInit (i : Cursor) (s : StateOf i) : SplitPit :=
  { pos := pitPos i (pit i s), byteReached := true, recordPos := none }

/-- `SplitOnByteIter::reach_split_byte`: advance until exhausted; if
`byte_reached` was set, clear it and report a fresh segment, else report
the end of iteration. -/
def reachSplitByte (b : Byte) (i : Cursor) (st : SplitPit × StateOf i) :
    Option Unit × (SplitPit × StateOf i) :=
  let st' := consumeC (.splitIter b i) st
  if st'.1.byteReached then
    (some (), ({ st'.1 with byteReached := false }, st'.2))
  else (none, st')

/-- `SplitOnByte::next`: `reach_split_byte()?`, then clear `record_pos`
and hand out the segment cursor. -/
def splitNext (b : Byte) (i : Cursor) (st : SplitPit × StateOf i) :
    Option Unit × (SplitPit × StateOf i) :=
  match reachSplitByte b i st with
  | (none, st') => (none, st')
  | (some _, st') => (some (), ({ st'.1 with recordPos := none }, st'.2))

/-- One iteration of the documented consumer loop over `SplitOnByte`
(`splitter.next()` followed by `segment.record().consume_to_slice()`, as in
the crate examples): fetch the next segment, record at its start, consume it
and materialize its raw span. -/
def splitSegStep (sl : List Byte) (b : Byte) (st : SplitPit × Position) :
    Option (List Byte) × (SplitPit × Position) :=
  match splitNext b (.parser sl) st with
  | (none, st') => (none, st')
  | (some _, st₁) =>
    let c := mkRecord (.splitIter b (.parser sl)) st₁
    let st₂ := consumeC c st₁
    (toSlice c st₂, st₂)

/-- Run the consumer loop, collecting the materialized raw span of every
yielded segment (`map_and_collect(|seg| seg.record().consume_to_slice())`). -/
def runSplitAux (sl : List Byte) (b : Byte) : Nat → SplitPit × Position → List (List Byte)
  | 0, _ => []
  | n + 1, st =>
    match splitSegStep sl b st with
    | (none, _) => []
    | (some seg, st') => seg :: runSplitAux sl b n st'

/-- The full split-and-materialize run over a fresh `Parser`: build the
iterator with `SplitOnByteIter::new` and collect every segment's raw span.
`slice.length + 2` bounds the number of segments (each one past the first
consumes at least one byte). -/
def runSplit (sl : List Byte) (b : Byte) : List (List Byte) :=
  runSplitAux sl b (sl.length + 2)
    (splitInit (.parser sl) Position.null, Position.null)

/-- Spec-side operation for the round-trip property: concatenate the
segments re-inserting the separator between consecutive ones. -/
def joinWith (sep : List Byte) : List (List Byte) → List Byte
  | [] => []
  | [x] => x
  | x :: xs => x ++ sep ++ joinWith sep xs

/-- The ignore-and-record chain used by the span claims: a fresh recorder
over a fresh `Parser` (anchor `null`), wrapped in `IgnoreByte`. -/
def ignC (sl : List Byte) (x : Byte) : Cursor :=
  .ignoreByte x (.record Position.null (.parser sl))

/-- Spec-side predicate: whether the leaf of a wrapper chain is the
text-sourced `StrParser`. -/
def leafIsStr : Cursor → Bool
  | .parser _ => false
  | .strParser _ => true
  | .ignoreByte _ i => leafIsStr i
  | .whileByteFn _ i => leafIsStr i
  | .stop i => leafIsStr i
  | .record _ i => leafIsStr i
  | .splitIter _ i => leafIsStr i

/-! ### General lemmas about the cursor contract -/

/-- Restoring a pit and reading it back yields exactly the restored pit,
for every cursor in the family. -/
theorem pit_restore : ∀ (c : Cursor) (s : StateOf c) (p : PitOf c),
    pit c (restorePit c s p) = p := by
  intro c
  induction c with
  | parser sl => intro s p; rfl
  | strParser sl => intro s p; rfl
  | ignoreByte b i ih => intro s p; exact ih s p
  | whileByteFn f i ih => intro s p; exact ih s p
  | stop i ih => intro s p; exact ih s p
  | record a i ih => intro s p; exact ih s p
  | splitIter b i ih => intro s p; rfl

/-- `next` of the byte-slice leaf returns the byte at index `pos + 1`. -/
theorem next_parser_fst (sl : List Byte) (p : Position) :
    (next (Cursor.parser sl) p).1 = sl[Position.add p 1]? := by
  by_cases h : Position.add p 1 < sl.length
  · simp [next, nextWith, advance, h, byte, pit, pitPos, slice, sliceGet]
  · have hle : sl.length ≤ Position.add p 1 := Nat.le_of_not_lt h
    simp [next, nextWith, advance, h, List.getElem?_eq_none hle]

/-- A defined byte lookup implies the index is inside the buffer. -/
theorem lt_of_getElem?_eq_some {sl : List Byte} {n : Nat} {x : Byte}
    (h : sl[n]? = some x) : n < sl.length := by
  by_contra h'
  simp [List.getElem?_eq_none (Nat.le_of_not_lt h')] at h

/-- `RecordIter` delegates `advance` to its inner cursor. -/
theorem advance_record (a : Position) (j : Cursor) :
    advance (Cursor.record a j) = advance j := rfl

/-- `RecordIter` is transparent to `WhileByteFn` steps performed on it. -/
theorem whileAdv_record (a : Position) (j : Cursor)
    (adv : StateOf j → Option Unit × StateOf j) (f : Byte → Bool) :
    whileAdv (Cursor.record a j) adv f = whileAdv j adv f := by
  funext s
  rcases h : adv s with ⟨o, s'⟩
  cases o with
  | none => simp [whileAdv, nextWith, h, pit, restorePit]
  | some u =>
    simp only [whileAdv, nextWith, h, byte, pit, restorePit, slice, pitPos]
    rcases hb : sliceGet (slice j) (pitPos j (pit j s')) with _ | x <;> simp

/-- Characterization of `while_byte_fn(f).consume()` over the byte-slice
leaf: starting anywhere, it ends positioned after the longest prefix of the
remaining bytes that satisfies `f` (position unchanged when the first
remaining byte is rejected or the buffer is exhausted). -/
theorem whileConsume_leaf (sl : List Byte) (f : Byte → Bool) :
    ∀ (t : List Byte) (p : Position) (fuel : Nat),
      sl.drop (Position.add p 1) = t → t.length + 1 ≤ fuel →
      Position.add
        (loopConsume (whileAdv (Cursor.parser sl) (advance (Cursor.parser sl)) f) fuel p) 1
        = Position.add p 1 + (t.takeWhile f).length := by
  intro t
  induction t with
  | nil =>
    intro p fuel ht hf
    obtain ⟨fu, rfl⟩ : ∃ fu, fuel = fu + 1 := ⟨fuel - 1, by omega⟩
    have hnlt : ¬ Position.add p 1 < sl.length :=
      Nat.not_lt.mpr (List.drop_eq_nil_iff.mp ht)
    simp [loopConsume, whileAdv, nextWith, advance, hnlt]
  | cons x t' ih =>
    intro p fuel ht hf
    obtain ⟨fu, rfl⟩ : ∃ fu, fuel = fu + 1 := ⟨fuel - 1, by omega⟩
    have hne : sl.drop (Position.add p 1) ≠ [] := by simp [ht]
    have hlt : Position.add p 1 < sl.length := by
      by_contra hn
      exact hne (List.drop_eq_nil_iff.mpr (Nat.le_of_not_lt hn))
    have hbyte : sl[Position.add p 1]? = some x := by
      have h0 := List.getElem?_drop sl (Position.add p 1) 0
      rw [ht] at h0
      simpa using h0.symm
    have hdrop' : sl.drop (Position.add p 1 + 1) = t' := by
      have h1 := List.drop_drop 1 (Position.add p 1) sl
      rw [ht] at h1
      simpa using h1.symm
    by_cases hfx : f x
    · have step : whileAdv (Cursor.parser sl) (advance (Cursor.parser sl)) f p
          = (some (), (some (Position.add p 1) : Position)) := by
        simp [whileAdv, nextWith, advance, hlt, byte, pit, pitPos, slice,
          sliceGet, hbyte, hfx]
      have ihv := ih (some (Position.add p 1)) fu
        (by simpa [Position.add] using hdrop') (by simpa using Nat.lt_succ_iff.mp hf)
      simp only [loopConsume, step]
      rw [ihv]
      simp [Position.add, List.takeWhile_cons_of_pos hfx]
      omega
    · have step : whileAdv (Cursor.parser sl) (advance (Cursor.parser sl)) f p
          = (none, p) := by
        simp [whileAdv, nextWith, advance, hlt, byte, pit, pitPos, slice,
          sliceGet, hbyte, hfx, restorePit]
      simp [loopConsume, step, List.takeWhile_cons_of_neg hfx]

/-! ### The claims -/

/-- C1: for every cursor in the family and every state, `peek` returns the
byte `next` would return and leaves the cursor's point-in-time equal to the
point-in-time captured before the peek; for `SplitOnByteIter` over a leaf,
whose `restore_pit` resynchronizes the inner cursor's position, the whole
state (own pit and inner position) after a peek equals the state before,
whenever the pit's position is in sync with the inner cursor. -/
theorem peek_preserves_point_in_time :
    (∀ (c : Cursor) (s : StateOf c),
        (peek c s).1 = (next c s).1 ∧ pit c (peek c s).2 = pit c s)
    ∧ ∀ (b : Byte) (sl : List Byte) (sp : SplitPit) (p : Position),
        sp.pos = p →
        (peek (Cursor.splitIter b (Cursor.parser sl)) (sp, p)).2 = (sp, p) := by
  constructor
  · intro c s
    exact ⟨rfl, pit_restore c _ _⟩
  · intro b sl sp p hsync
    show (sp, restorePit (Cursor.parser sl) _ (pitSetPos (Cursor.parser sl) _ sp.pos))
        = (sp, p)
    simp [restorePit, pitSetPos, hsync]

theorem peek_preserves_point_in_time_witness :
    (peek (Cursor.splitIter 1 (Cursor.parser [2, 1, 3]))
        (⟨some 0, false, none⟩, (some 0 : Position))).2
      = (⟨some 0, false, none⟩, (some 0 : Position)) :=
  peek_preserves_point_in_time.2 1 [2, 1, 3] ⟨some 0, false, none⟩ (some 0) rfl

/-- C5: `is_valid_utf8` is fixed at leaf construction (`false` for the
byte-slice leaf `Parser`, `true` for the text leaf `StrParser`), every
wrapper returns exactly its inner cursor's flag unchanged, and consequently
the flag is `true` for a chain iff its leaf is a `StrParser`. -/
theorem validUtf8_inherited_from_leaf :
    (∀ sl, validUtf8 (Cursor.parser sl) = false)
    ∧ (∀ sl, validUtf8 (Cursor.strParser sl) = true)
    ∧ (∀ (c : Cursor) (b : Byte), validUtf8 (Cursor.ignoreByte b c) = validUtf8 c)
    ∧ (∀ (c : Cursor) (f : Byte → Bool), validUtf8 (Cursor.whileByteFn f c) = validUtf8 c)
    ∧ (∀ c : Cursor, validUtf8 (Cursor.stop c) = validUtf8 c)
    ∧ (∀ (c : Cursor) (a : Position), validUtf8 (Cursor.record a c) = validUtf8 c)
    ∧ (∀ (c : Cursor) (b : Byte), validUtf8 (Cursor.splitIter b c) = validUtf8 c)
    ∧ ∀ c : Cursor, validUtf8 c = true ↔ leafIsStr c = true := by
  refine ⟨fun _ => rfl, fun _ => rfl, fun _ _ => rfl, fun _ _ => rfl,
    fun _ => rfl, fun _ _ => rfl, fun _ _ => rfl, ?_⟩
  intro c
  induction c with
  | parser sl => simp [validUtf8, leafIsStr]
  | strParser sl => simp [validUtf8, leafIsStr]
  | ignoreByte b i ih => simpa [validUtf8, leafIsStr] using ih
  | whileByteFn f i ih => simpa [validUtf8, leafIsStr] using ih
  | stop i ih => simpa [validUtf8, leafIsStr] using ih
  | record a i ih => simpa [validUtf8, leafIsStr] using ih
  | splitIter b i ih => simpa [validUtf8, leafIsStr] using ih

/-- C2: `SplitOnByteIter::advance` follows the two-state machine: with
`byte_reached` set it reports exhausted at once without touching the inner
cursor; otherwise it performs exactly one inner advance; inner exhaustion is
reported with `byte_reached` still clear; producing the split byte sets
`byte_reached`, stores the pre-advance position as `record_pos` and reports
exhausted; any other byte clears `record_pos` and reports success. -/
theorem splitIter_advance_state_machine :
    ∀ (b : Byte) (i : Cursor) (sp : SplitPit) (si : StateOf i),
      (sp.byteReached = true →
        advance (Cursor.splitIter b i) (sp, si) = (none, (sp, si)))
      ∧ (∀ si', sp.byteReached = false → advance i si = (none, si') →
          advance (Cursor.splitIter b i) (sp, si) = (none, (sp, si')))
      ∧ (∀ si' x, sp.byteReached = false → advance i si = (some (), si') →
          sliceGet (slice i) (pitPos i (pit i si')) = some x → x = b →
          advance (Cursor.splitIter b i) (sp, si)
            = (none, ({ pos := pitPos i (pit i si'), byteReached := true,
                        recordPos := some (pitPos i (pit i si)) }, si')))
      ∧ (∀ si' x, sp.byteReached = false → advance i si = (some (), si') →
          sliceGet (slice i) (pitPos i (pit i si')) = some x → x ≠ b →
          advance (Cursor.splitIter b i) (sp, si)
            = (some (), ({ pos := pitPos i (pit i si'), byteReached := false,
                           recordPos := none }, si'))) := by
  intro b i sp si
  refine ⟨fun hbr => by simp [advance, hbr], ?_, ?_, ?_⟩
  · intro si' hbr hadv
    simp [advance, hbr, hadv]
  · intro si' x hbr hadv hbyte hxb
    subst hxb
    simp [advance, hbr, hadv, hbyte]
  · intro si' x hbr hadv hbyte hxb
    simp [advance, hbr, hadv, hbyte, hxb]

theorem splitIter_advance_state_machine_witness :
    (⟨none, false, none⟩ : SplitPit).byteReached = false
    ∧ advance (Cursor.parser [7]) (Position.null) = (some (), (some 0 : Position))
    ∧ sliceGet (slice (Cursor.parser [7]))
        (pitPos (Cursor.parser [7]) (pit (Cursor.parser [7]) (some 0 : Position))) = some 7
    ∧ advance (Cursor.splitIter 7 (Cursor.parser [7])) (⟨none, false, none⟩, Position.null)
        = (none, (⟨some 0, true, some none⟩, (some 0 : Position))) :=
  ⟨rfl, rfl, rfl,
    (splitIter_advance_state_machine 7 (Cursor.parser [7]) ⟨none, false, none⟩
        Position.null).2.2.1 (some 0) 7 rfl rfl rfl rfl⟩

/-- C7: `expect_byte(b)` succeeds exactly when a next byte exists and equals
`b`; a differing produced byte is reported in the error, exhaustion is
reported as `Err(None)`; in particular on `"ba"` expecting `'a'` fails
reporting `'b'`, and on `"a"` after consuming the `'a'` it fails reporting
exhaustion (here `'a' = 97`, `'b' = 98`). -/
theorem expectByte_reports_observed_or_exhausted :
    (∀ (c : Cursor) (s : StateOf c) (b x : Byte),
        (next c s).1 = some x → x = b → (expectByte c b s).1 = .ok ())
    ∧ (∀ (c : Cursor) (s : StateOf c) (b x : Byte),
        (next c s).1 = some x → x ≠ b → (expectByte c b s).1 = .error (some x))
    ∧ (∀ (c : Cursor) (s : StateOf c) (b : Byte),
        (next c s).1 = none → (expectByte c b s).1 = .error none)
    ∧ (expectByte (Cursor.parser [98, 97]) 97 Position.null).1 = .error (some 98)
    ∧ (expectByte (Cursor.parser [97]) 97
        ((next (Cursor.parser [97]) Position.null).2)).1 = .error none := by
  refine ⟨?_, ?_, ?_, rfl, rfl⟩
  · intro c s b x hx hxb
    subst hxb
    simp [expectByte, expectByteFn, hx]
  · intro c s b x hx hxb
    simp [expectByte, expectByteFn, hx, hxb]
  · intro c s b hx
    simp [expectByte, expectByteFn, hx]

theorem expectByte_reports_observed_or_exhausted_witness :
    (next (Cursor.parser [98, 97]) Position.null).1 = some 98
    ∧ (expectByte (Cursor.parser [98, 97]) 97 Position.null).1
        = .error (some 98) :=
  ⟨rfl, expectByte_reports_observed_or_exhausted.2.1 (Cursor.parser [98, 97])
    Position.null 97 98 rfl (by decide)⟩

/-- C9: a failed `expect_byte` with an observed byte leaves the cursor
advanced onto the mismatching byte — the point-in-time is not restored —
so the observed byte is consumed and a subsequent `next` returns the byte
after it, not the observed byte again. -/
theorem expectByte_mismatch_consumes_byte :
    ∀ (sl : List Byte) (p : Position) (b x : Byte),
      sl[Position.add p 1]? = some x → x ≠ b →
      expectByte (Cursor.parser sl) b p
          = (.error (some x), (some (Position.add p 1) : Position))
        ∧ byte (Cursor.parser sl) (some (Position.add p 1) : Position) = some x
        ∧ (next (Cursor.parser sl) (some (Position.add p 1) : Position)).1
            = sl[Position.add p 1 + 1]? := by
  intro sl p b x hx hxb
  have hlt : Position.add p 1 < sl.length := lt_of_getElem?_eq_some hx
  refine ⟨?_, ?_, ?_⟩
  · simp [expectByte, expectByteFn, next, nextWith, advance, hlt, byte, pit,
      pitPos, slice, sliceGet, hx, hxb]
  · simp [byte, pit, pitPos, slice, sliceGet, hx]
  · simpa using next_parser_fst sl (some (Position.add p 1))

theorem expectByte_mismatch_consumes_byte_witness :
    expectByte (Cursor.parser [98, 97]) 97 Position.null
        = (.error (some 98), (some 0 : Position))
      ∧ byte (Cursor.parser [98, 97]) (some 0 : Position) = some 98
      ∧ (next (Cursor.parser [98, 97]) (some 0 : Position)).1 = some 97 :=
  expectByte_mismatch_consumes_byte [98, 97] Position.null 97 98 rfl (by decide)

/-- The head of `dropWhile` is the element right after the `takeWhile`
prefix. -/
theorem dropWhile_head?_getElem? (f : Byte → Bool) :
    ∀ t : List Byte, (t.dropWhile f).head? = t[(t.takeWhile f).length]? := by
  intro t
  induction t with
  | nil => rfl
  | cons x t' ih =>
    by_cases hfx : f x
    · simp [List.dropWhile_cons_of_pos hfx, List.takeWhile_cons_of_pos hfx, ih]
    · simp [List.dropWhile_cons_of_neg hfx, List.takeWhile_cons_of_neg hfx]

/-- `WhileByteFn::advance` as a function equals one guarded step on the
inner cursor. -/
theorem advance_whileByteFn (f : Byte → Bool) (i : Cursor) :
    advance (Cursor.whileByteFn f i) = whileAdv i (advance i) f := by
  funext s
  simp [advance]

/-- C4 (counterexample): contrary to restore-on-exhaustion, when the inner
cursor is exhausted `WhileByteFn::advance` propagates the exhaustion
through `?` WITHOUT restoring the inner point-in-time; with `IgnoreByte(7)`
over the one-byte buffer `[7]` as the inner cursor, the failing advance has
moved the inner position from null onto index 0, and it stays there
instead of being restored to null. -/
theorem whileByteFn_exhaustion_not_restoring :
    (advance (Cursor.whileByteFn (fun _ => true)
        (Cursor.ignoreByte 7 (Cursor.parser [7]))) Position.null).1 = none
    ∧ (advance (Cursor.whileByteFn (fun _ => true)
        (Cursor.ignoreByte 7 (Cursor.parser [7]))) Position.null).2
      ≠ Position.null := by
  exact ⟨rfl, by decide⟩

/-- C4 (amended): `WhileByteFn::advance` keeps an inner advance exactly when
the predicate holds on the produced byte; when the predicate fails on a
produced byte it restores the inner point-in-time and reports exhausted;
when the inner cursor is exhausted it reports exhausted leaving the inner
state where the failed inner advance left it (for a leaf inner cursor that
is position-preserving); consequently, over a leaf, after running
`WhileByteFn(f)` to exhaustion the inner cursor's next byte is exactly the
first remaining byte that the predicate rejected. -/
theorem whileByteFn_stops_at_rejected_byte :
    (∀ (f : Byte → Bool) (i : Cursor) (s s' : StateOf i) (x : Byte),
        next i s = (some x, s') → f x = true →
        advance (Cursor.whileByteFn f i) s = (some (), s'))
    ∧ (∀ (f : Byte → Bool) (i : Cursor) (s s' : StateOf i) (x : Byte),
        next i s = (some x, s') → f x = false →
        advance (Cursor.whileByteFn f i) s = (none, restorePit i s' (pit i s)))
    ∧ (∀ (f : Byte → Bool) (i : Cursor) (s s' : StateOf i),
        next i s = (none, s') →
        advance (Cursor.whileByteFn f i) s = (none, s'))
    ∧ ∀ (sl : List Byte) (f : Byte → Bool) (p : Position),
        (next (Cursor.parser sl)
            (consumeC (Cursor.whileByteFn f (Cursor.parser sl)) p)).1
          = ((sl.drop (Position.add p 1)).dropWhile f).head? := by
  refine ⟨?_, ?_, ?_, ?_⟩
  · intro f i s s' x h hfx
    have h' : nextWith i (advance i) s = (some x, s') := h
    simp [advance, whileAdv, h', hfx]
  · intro f i s s' x h hfx
    have h' : nextWith i (advance i) s = (some x, s') := h
    simp [advance, whileAdv, h', hfx]
  · intro f i s s' h
    have h' : nextWith i (advance i) s = (none, s') := h
    simp [advance, whileAdv, h']
  · intro sl f p
    have hcons : consumeC (Cursor.whileByteFn f (Cursor.parser sl)) p
        = loopConsume (whileAdv (Cursor.parser sl) (advance (Cursor.parser sl)) f)
            (sl.length + 1) p := by
      simp [consumeC, advance_whileByteFn, slice]
    have hlen : (sl.drop (Position.add p 1)).length + 1 ≤ sl.length + 1 := by
      simp
    have hmain := whileConsume_leaf sl f (sl.drop (Position.add p 1)) p
      (sl.length + 1) rfl hlen
    rw [hcons, next_parser_fst, hmain, dropWhile_head?_getElem?,
      ← List.getElem?_drop]

/-- `takeWhile` never grows the list. -/
theorem takeWhile_length_le (f : Byte → Bool) :
    ∀ t : List Byte, (t.takeWhile f).length ≤ t.length := by
  intro t
  induction t with
  | nil => simp
  | cons x t' ih =>
    by_cases hfx : f x
    · simp [List.takeWhile_cons_of_pos hfx]; omega
    · simp [List.takeWhile_cons_of_neg hfx]

/-- `takeWhile` keeps a list all of whose elements satisfy the predicate. -/
theorem takeWhile_eq_self_of_all (f : Byte → Bool) :
    ∀ t : List Byte, (∀ y ∈ t, f y = true) → t.takeWhile f = t := by
  intro t
  induction t with
  | nil => simp
  | cons x t' ih =>
    intro hall
    have hfx : f x = true := hall x (by simp)
    rw [List.takeWhile_cons_of_pos hfx, ih fun y hy => hall y (by simp [hy])]

/-- `IgnoreByte::advance` over the recorded leaf: drain the run of the
ignored byte, then one leaf advance.  Success lands right after the drained
run; failure (only the ignored byte remains) leaves the position on the
last drained byte. -/
theorem ignC_advance (sl : List Byte) (X : Byte) (p : Position) :
    (Position.add p 1
        + ((sl.drop (Position.add p 1)).takeWhile (fun y => y == X)).length < sl.length →
      advance (ignC sl X) p
        = (some (), (some (Position.add p 1
            + ((sl.drop (Position.add p 1)).takeWhile (fun y => y == X)).length) : Position)))
    ∧ (¬ (Position.add p 1
        + ((sl.drop (Position.add p 1)).takeWhile (fun y => y == X)).length < sl.length) →
      (advance (ignC sl X) p).1 = none
      ∧ Position.add ((advance (ignC sl X) p).2) 1
          = Position.add p 1
            + ((sl.drop (Position.add p 1)).takeWhile (fun y => y == X)).length) := by
  have hadv : advance (ignC sl X) p
      = advance (Cursor.parser sl)
          (loopConsume
            (whileAdv (Cursor.parser sl) (advance (Cursor.parser sl)) (fun y => y == X))
            (sl.length + 1) p) := by
    simp [ignC, advance, advance_record, whileAdv_record, slice]
  have hq := whileConsume_leaf sl (fun y => y == X) (sl.drop (Position.add p 1)) p
    (sl.length + 1) rfl (by simp)
  rw [hadv]
  generalize hgen : loopConsume
    (whileAdv (Cursor.parser sl) (advance (Cursor.parser sl)) (fun y => y == X))
    (sl.length + 1) p = q at hq
  constructor
  · intro h
    simp [advance, hq, h]
  · intro h
    simp [advance, hq, h]

/-- Consuming through `IgnoreByte` over the recorded leaf always ends with
the position on the last byte of the buffer (trailing runs of the ignored
byte included). -/
theorem ignC_consume (sl : List Byte) (X : Byte) :
    ∀ (fuel : Nat) (p : Position), Position.add p 1 ≤ sl.length →
      sl.length - Position.add p 1 + 1 ≤ fuel →
      Position.add (loopConsume (advance (ignC sl X)) fuel p) 1 = sl.length := by
  intro fuel
  induction fuel with
  | zero => intro p h1 h2; omega
  | succ fu ih =>
    intro p hp hf
    have htw : ((sl.drop (Position.add p 1)).takeWhile (fun y => y == X)).length
        ≤ sl.length - Position.add p 1 := by
      have h1 := takeWhile_length_le (fun y => y == X) (sl.drop (Position.add p 1))
      simpa using h1
    by_cases hlt : Position.add p 1
        + ((sl.drop (Position.add p 1)).takeWhile (fun y => y == X)).length < sl.length
    · have hstep := (ignC_advance sl X p).1 hlt
      simp only [loopConsume, hstep]
      refine ih (some (Position.add p 1
        + ((sl.drop (Position.add p 1)).takeWhile (fun y => y == X)).length)) ?_ ?_
      · rw [Position.add_some]; omega
      · rw [Position.add_some]; omega
    · obtain ⟨h1', h2'⟩ := (ignC_advance sl X p).2 hlt
      rcases hadv : advance (ignC sl X) p with ⟨o, p'⟩
      rw [hadv] at h1' h2'
      simp only at h1' h2'
      subst h1'
      simp only [loopConsume, hadv]
      omega

/-- Materializing the recorded span of `ignC` from the null anchor at a past
the last byte yields the whole buffer. -/
theorem toSlice_ignC (sl : List Byte) (X : Byte) (s : Position)
    (h : Position.add s 1 = sl.length) :
    toSlice (ignC sl X) s = some sl := by
  simp only [toSlice, recorder, ignC, pit, pitRecordPos, slice]
  rw [h]
  simp

/-- C6: after traversal through `IgnoreByte(X)` over a recorder anchored at
the start, `to_slice` returns the raw bytes of the buffer between the
anchor and the current position, including every occurrence of `X`
verbatim: consuming the whole chain materializes the entire original
buffer. -/
theorem ignore_byte_spans_keep_ignored_bytes :
    ∀ (sl : List Byte) (X : Byte),
      toSlice (ignC sl X) (consumeC (ignC sl X) Position.null) = some sl := by
  intro sl X
  have hrw : consumeC (ignC sl X) Position.null
      = loopConsume (advance (ignC sl X)) (sl.length + 1) Position.null := by
    simp [consumeC, ignC, slice]
  have hrun : Position.add (consumeC (ignC sl X) Position.null) 1 = sl.length := by
    rw [hrw]
    exact ignC_consume sl X (sl.length + 1) Position.null
      (by simp [Position.null, Position.add]) (by simp [Position.null, Position.add])
  exact toSlice_ignC sl X _ hrun

/-- C10: when only the ignored byte remains, `IgnoreByte::advance` reports
exhausted but has still moved the inner position forward past the trailing
run of ignored bytes, so a span materialized afterwards includes them. -/
theorem ignore_byte_failed_advance_moves :
    ∀ (sl : List Byte) (X : Byte) (p : Position),
      Position.add p 1 < sl.length →
      (∀ j, Position.add p 1 ≤ j → j < sl.length → sl[j]? = some X) →
      (advance (ignC sl X) p).1 = none
      ∧ Position.add ((advance (ignC sl X) p).2) 1 = sl.length
      ∧ toSlice (ignC sl X) ((advance (ignC sl X) p).2) = some sl := by
  intro sl X p hp hall
  have htw : (sl.drop (Position.add p 1)).takeWhile (fun y => y == X)
      = sl.drop (Position.add p 1) := by
    apply takeWhile_eq_self_of_all
    intro y hy
    obtain ⟨n, hn⟩ := List.getElem?_of_mem hy
    rw [List.getElem?_drop] at hn
    have hnlt : Position.add p 1 + n < sl.length := lt_of_getElem?_eq_some hn
    have := hall (Position.add p 1 + n) (by omega) hnlt
    rw [this] at hn
    simp_all
  have hm : Position.add p 1 + ((sl.drop (Position.add p 1)).takeWhile
      (fun y => y == X)).length = sl.length := by
    rw [htw]
    simp
    omega
  have hnlt : ¬ Position.add p 1 + ((sl.drop (Position.add p 1)).takeWhile
      (fun y => y == X)).length < sl.length := by omega
  obtain ⟨h1, h2⟩ := (ignC_advance sl X p).2 hnlt
  rw [hm] at h2
  exact ⟨h1, h2, toSlice_ignC sl X _ h2⟩

theorem ignore_byte_failed_advance_moves_witness :
    (advance (ignC [5, 7, 7] 7) (some 0 : Position)).1 = none
    ∧ Position.add ((advance (ignC [5, 7, 7] 7) (some 0 : Position)).2) 1 = 3
    ∧ toSlice (ignC [5, 7, 7] 7) ((advance (ignC [5, 7, 7] 7) (some 0 : Position)).2)
        = some [5, 7, 7] :=
  ignore_byte_failed_advance_moves [5, 7, 7] 7 (some 0) (by decide)
    (by
      intro j h1 h2
      rw [Position.add_some] at h1
      simp only [List.length_cons, List.length_nil] at h2
      interval_cases j <;> rfl)

theorem whileByteFn_stops_at_rejected_byte_witness :
    next (Cursor.parser [5]) Position.null = (some 5, (some 0 : Position))
    ∧ advance (Cursor.whileByteFn (fun x => x == 5) (Cursor.parser [5]))
        Position.null = (some (), (some 0 : Position)) :=
  ⟨rfl, whileByteFn_stops_at_rejected_byte.1 (fun x => x == 5)
    (Cursor.parser [5]) Position.null (some 0) 5 rfl rfl⟩

/-! ### Lemmas about `SplitOnByte` over a leaf -/

/-- The bytes a `SplitOnByte(b)` segment scans through: everything except
the delimiter `b`. -/
def nonDelim (b : Byte) : Byte → Bool := fun y => y != b

theorem nonDelim_self (b : Byte) : ¬ nonDelim b b = true := by simp [nonDelim]

theorem nonDelim_of_ne {b x : Byte} (h : x ≠ b) : nonDelim b x = true := by
  simp [nonDelim, h]

/-- When the delimiter occurs, the non-delimiter prefix is strictly
shorter than the list. -/
theorem takeWhile_nonDelim_length_lt (b : Byte) :
    ∀ t : List Byte, b ∈ t → (t.takeWhile (nonDelim b)).length < t.length := by
  intro t
  induction t with
  | nil => intro h; cases h
  | cons x t' ih =>
    intro hmem
    by_cases hxb : x = b
    · subst hxb
      simp [List.takeWhile_cons_of_neg (nonDelim_self x)]
    · have hmem' : b ∈ t' := by
        cases hmem with
        | head => exact absurd rfl hxb
        | tail _ h => exact h
      simp only [List.takeWhile_cons_of_pos (nonDelim_of_ne hxb), List.length_cons]
      exact Nat.succ_lt_succ (ih hmem')

/-- Taking the length of the `takeWhile` prefix recovers it. -/
theorem take_takeWhile_length (f : Byte → Bool) :
    ∀ t : List Byte, t.take ((t.takeWhile f).length) = t.takeWhile f := by
  intro t
  induction t with
  | nil => rfl
  | cons x t' ih =>
    by_cases hfx : f x
    · simp [List.takeWhile_cons_of_pos hfx, ih]
    · simp [List.takeWhile_cons_of_neg hfx]

/-- Reconstruction: the non-delimiter prefix, the first delimiter and the
rest concatenate back to the original list. -/
theorem takeWhile_nonDelim_reconstruct (b : Byte) :
    ∀ t : List Byte, b ∈ t →
      t.takeWhile (nonDelim b)
        ++ b :: t.drop ((t.takeWhile (nonDelim b)).length + 1) = t := by
  intro t
  induction t with
  | nil => intro h; cases h
  | cons x t' ih =>
    intro hmem
    by_cases hxb : x = b
    · subst hxb
      simp [List.takeWhile_cons_of_neg (nonDelim_self x)]
    · have hmem' : b ∈ t' := by
        cases hmem with
        | head => exact absurd rfl hxb
        | tail _ h => exact h
      rw [List.takeWhile_cons_of_pos (nonDelim_of_ne hxb)]
      simp only [List.length_cons, List.cons_append, List.drop_succ_cons]
      rw [ih hmem']

/-- `joinWith` on a cons with a nonempty tail. -/
theorem joinWith_cons (sep x : List Byte) (xs : List (List Byte)) (h : xs ≠ []) :
    joinWith sep (x :: xs) = x ++ sep ++ joinWith sep xs := by
  cases xs with
  | nil => exact absurd rfl h
  | cons y ys => rfl

/-- Characterization of consuming a `SplitOnByteIter` segment over the
byte-slice leaf, starting in scanning state with position in sync: if the
delimiter occurs in the remaining bytes, the cursor stops on it with
`byte_reached` set and `record_pos` on the previous position; otherwise it
stops at the end of the buffer still scanning. -/
theorem splitConsume_leaf (sl : List Byte) (b : Byte) :
    ∀ (t : List Byte) (p : Position) (fuel : Nat),
      sl.drop (Position.add p 1) = t → t.length + 1 ≤ fuel →
      (b ∈ t →
        ∃ q : Position,
          loopConsume (advance (Cursor.splitIter b (Cursor.parser sl))) fuel
              ((⟨p, false, none⟩ : SplitPit), p)
            = ((⟨some (Position.add p 1 + (t.takeWhile (nonDelim b)).length),
                true, some q⟩ : SplitPit),
               (some (Position.add p 1 + (t.takeWhile (nonDelim b)).length) : Position))
          ∧ Position.add q 1
              = Position.add p 1 + (t.takeWhile (nonDelim b)).length)
      ∧ (b ∉ t →
        ∃ q : Position,
          loopConsume (advance (Cursor.splitIter b (Cursor.parser sl))) fuel
              ((⟨p, false, none⟩ : SplitPit), p)
            = ((⟨q, false, none⟩ : SplitPit), q)
          ∧ Position.add q 1 = Position.add p 1 + t.length) := by
  intro t
  induction t with
  | nil =>
    intro p fuel ht hf
    obtain ⟨fu, rfl⟩ : ∃ fu, fuel = fu + 1 := ⟨fuel - 1, by omega⟩
    have hnlt : ¬ Position.add p 1 < sl.length :=
      Nat.not_lt.mpr (List.drop_eq_nil_iff.mp ht)
    constructor
    · intro h; cases h
    · intro _
      refine ⟨p, ?_, by simp⟩
      simp [loopConsume, advance, pit, pitPos, hnlt]
  | cons x t' ih =>
    intro p fuel ht hf
    obtain ⟨fu, rfl⟩ : ∃ fu, fuel = fu + 1 := ⟨fuel - 1, by omega⟩
    have hne : sl.drop (Position.add p 1) ≠ [] := by simp [ht]
    have hlt : Position.add p 1 < sl.length := by
      by_contra hn
      exact hne (List.drop_eq_nil_iff.mpr (Nat.le_of_not_lt hn))
    have hbyte : sl[Position.add p 1]? = some x := by
      have h0 := List.getElem?_drop sl (Position.add p 1) 0
      rw [ht] at h0
      simpa using h0.symm
    have hdrop' : sl.drop (Position.add p 1 + 1) = t' := by
      have h1 := List.drop_drop 1 (Position.add p 1) sl
      rw [ht] at h1
      simpa using h1.symm
    by_cases hxb : x = b
    · -- the very next byte is the delimiter
      subst hxb
      have hstep : advance (Cursor.splitIter x (Cursor.parser sl))
          ((⟨p, false, none⟩ : SplitPit), p)
          = (none, ((⟨some (Position.add p 1), true, some p⟩ : SplitPit),
              (some (Position.add p 1) : Position))) := by
        simp [advance, pit, pitPos, slice, sliceGet, hlt, hbyte]
      constructor
      · intro _
        refine ⟨p, ?_, ?_⟩
        · simp only [loopConsume, hstep]
          simp [List.takeWhile_cons_of_neg (nonDelim_self x)]
        · simp [List.takeWhile_cons_of_neg (nonDelim_self x)]
      · intro h
        simp at h
    · have hx : nonDelim b x = true := nonDelim_of_ne hxb
      have hxbeq : (x == b) = false := by simp [hxb]
      have hstep : advance (Cursor.splitIter b (Cursor.parser sl))
          ((⟨p, false, none⟩ : SplitPit), p)
          = (some (), ((⟨some (Position.add p 1), false, none⟩ : SplitPit),
              (some (Position.add p 1) : Position))) := by
        simp [advance, pit, pitPos, slice, sliceGet, hlt, hbyte, hxbeq]
      have ihall := ih (some (Position.add p 1)) fu
        (by simpa using hdrop') (by simp at hf ⊢; omega)
      constructor
      · intro hmem
        have hmem' : b ∈ t' := by
          cases hmem with
          | head => exact absurd rfl hxb
          | tail _ h => exact h
        obtain ⟨q, hst, hq⟩ := ihall.1 hmem'
        have harith : Position.add (some (Position.add p 1)) 1
              + (t'.takeWhile (nonDelim b)).length
            = Position.add p 1
              + ((x :: t').takeWhile (nonDelim b)).length := by
          rw [List.takeWhile_cons_of_pos hx]
          simp only [List.length_cons, Position.add_some]
          omega
        refine ⟨q, ?_, ?_⟩
        · simp only [loopConsume, hstep]
          rw [hst, harith]
        · rw [hq, harith]
      · intro hmem
        have hmem' : b ∉ t' := fun h => hmem (List.mem_cons_of_mem x h)
        obtain ⟨q, hst, hq⟩ := ihall.2 hmem'
        refine ⟨q, ?_, ?_⟩
        · simp only [loopConsume, hstep]
          exact hst
        · rw [hq]
          simp only [List.length_cons, Position.add_some]
          omega

/-- `SplitOnByte::next` from a boundary state (`byte_reached` set, position
in sync): the first advance reports exhausted immediately, the flag is
cleared, `record_pos` is cleared, and a fresh segment is yielded. -/
theorem splitNext_boundary (sl : List Byte) (b : Byte) (p : Position)
    (rp : Option Position) :
    splitNext b (Cursor.parser sl) ((⟨p, true, rp⟩ : SplitPit), p)
      = (some (), ((⟨p, false, none⟩ : SplitPit), p)) := by
  simp [splitNext, reachSplitByte, consumeC, slice, loopConsume, advance]

/-- `SplitOnByte::next` at the end of the buffer while scanning: no further
segment is yielded. -/
theorem splitNext_exhausted (sl : List Byte) (b : Byte) (p : Position)
    (h : sl.length ≤ Position.add p 1) :
    splitNext b (Cursor.parser sl) ((⟨p, false, none⟩ : SplitPit), p)
      = (none, ((⟨p, false, none⟩ : SplitPit), p)) := by
  simp [splitNext, reachSplitByte, consumeC, slice, loopConsume, advance, pit,
    pitPos, Nat.not_lt.mpr h]

/-- Main driver induction: from any boundary state, re-inserting the
delimiter between the materialized raw spans of all remaining segments
reconstructs exactly the not-yet-scanned part of the buffer, and at least
one segment is always yielded. -/
theorem runSplitAux_joins (sl : List Byte) (b : Byte) :
    ∀ (n : Nat) (p : Position) (rp : Option Position) (t : List Byte),
      sl.drop (Position.add p 1) = t → Position.add p 1 ≤ sl.length →
      t.length + 2 ≤ n →
      joinWith [b] (runSplitAux sl b n ((⟨p, true, rp⟩ : SplitPit), p)) = t
      ∧ runSplitAux sl b n ((⟨p, true, rp⟩ : SplitPit), p) ≠ [] := by
  intro n
  induction n with
  | zero => intro p rp t ht hp hn; omega
  | succ n' ih =>
    intro p rp t ht hp hn
    have htlen : t.length = sl.length - Position.add p 1 := by
      rw [← ht]; simp
    have hcons : consumeC (Cursor.record p (Cursor.splitIter b (Cursor.parser sl)))
        ((⟨p, false, none⟩ : SplitPit), p)
        = loopConsume (advance (Cursor.splitIter b (Cursor.parser sl)))
            (sl.length + 1) ((⟨p, false, none⟩ : SplitPit), p) := by
      rw [consumeC, advance_record]
      simp [slice]
    have hfuel : t.length + 1 ≤ sl.length + 1 := by omega
    have hsc := splitConsume_leaf sl b t p (sl.length + 1) ht hfuel
    by_cases hmem : b ∈ t
    · obtain ⟨q, hst, hq⟩ := hsc.1 hmem
      have hklt := takeWhile_nonDelim_length_lt b t hmem
      have hseg : toSlice (Cursor.record p (Cursor.splitIter b (Cursor.parser sl)))
          ((⟨some (Position.add p 1 + (t.takeWhile (nonDelim b)).length),
            true, some q⟩ : SplitPit),
           (some (Position.add p 1 + (t.takeWhile (nonDelim b)).length) : Position))
          = some (t.takeWhile (nonDelim b)) := by
        simp only [toSlice, recorder, slice, pit, pitRecordPos]
        rw [hq]
        rw [if_pos ⟨by omega, by omega⟩]
        congr 1
        rw [Nat.add_sub_cancel_left, ht]
        exact take_takeWhile_length (nonDelim b) t
      have hstep : splitSegStep sl b ((⟨p, true, rp⟩ : SplitPit), p)
          = (some (t.takeWhile (nonDelim b)),
             ((⟨some (Position.add p 1 + (t.takeWhile (nonDelim b)).length),
               true, some q⟩ : SplitPit),
              (some (Position.add p 1 + (t.takeWhile (nonDelim b)).length) : Position))) := by
        simp only [splitSegStep, splitNext_boundary, mkRecord, pit, pitRecordPos,
          hcons, hst, hseg]
      have hdrop2 : sl.drop (Position.add
            (some (Position.add p 1 + (t.takeWhile (nonDelim b)).length)) 1)
          = t.drop ((t.takeWhile (nonDelim b)).length + 1) := by
        rw [Position.add_some, ← ht, List.drop_drop]
        congr 1
      have hih := ih
        (some (Position.add p 1 + (t.takeWhile (nonDelim b)).length)) (some q)
        (t.drop ((t.takeWhile (nonDelim b)).length + 1)) hdrop2
        (by rw [Position.add_some]; omega)
        (by simp only [List.length_drop]; omega)
      obtain ⟨hjoin, hne'⟩ := hih
      constructor
      · simp only [runSplitAux, hstep]
        rw [joinWith_cons _ _ _ hne', hjoin]
        have hrec := takeWhile_nonDelim_reconstruct b t hmem
        simpa using hrec
      · simp only [runSplitAux, hstep]
        simp
    · obtain ⟨q, hst, hq⟩ := hsc.2 hmem
      have hqlen : Position.add q 1 = sl.length := by omega
      have hseg : toSlice (Cursor.record p (Cursor.splitIter b (Cursor.parser sl)))
          ((⟨q, false, none⟩ : SplitPit), q) = some t := by
        simp only [toSlice, recorder, slice, pit, pitRecordPos]
        rw [hqlen]
        rw [if_pos ⟨hp, Nat.le_refl _⟩]
        congr 1
        rw [ht, ← htlen]
        exact List.take_length t
      have hstep : splitSegStep sl b ((⟨p, true, rp⟩ : SplitPit), p)
          = (some t, ((⟨q, false, none⟩ : SplitPit), q)) := by
        simp only [splitSegStep, splitNext_boundary, mkRecord, pit, pitRecordPos,
          hcons, hst, hseg]
      obtain ⟨n'', rfl⟩ : ∃ n'', n' = n'' + 1 := ⟨n' - 1, by omega⟩
      have hstop : splitSegStep sl b ((⟨q, false, none⟩ : SplitPit), q)
          = (none, ((⟨q, false, none⟩ : SplitPit), q)) := by
        simp only [splitSegStep, splitNext_exhausted sl b q (by omega)]
      refine ⟨?_, ?_⟩
      · simp only [runSplitAux, hstep, hstop]
        rfl
      · simp only [runSplitAux, hstep, hstop]
        simp

/-- C3: for every buffer and every delimiter byte, concatenating the raw
spans of all segments yielded by `SplitOnByte` (each materialized with
`record().consume_to_slice()`, so from segment start up to `record_pos`,
excluding the delimiter) with one delimiter byte re-inserted between
consecutive segments reconstructs exactly the scanned region — here the
whole buffer, since the run starts on a fresh `Parser`. -/
theorem split_on_byte_roundtrip :
    ∀ (sl : List Byte) (b : Byte), joinWith [b] (runSplit sl b) = sl := by
  intro sl b
  have hinit : splitInit (Cursor.parser sl) Position.null
      = (⟨Position.null, true, none⟩ : SplitPit) := by
    simp [splitInit, pit, pitPos]
  have h := (runSplitAux_joins sl b (sl.length + 2) Position.null none sl
    (by simp [Position.null, Position.add]) (by simp [Position.null, Position.add])
    (by simp)).1
  rw [runSplit, hinit]
  exact h

/-- C8: because `byte_reached` is initialized to `true` at construction,
the first `SplitOnByte::next` always yields a segment (without touching the
inner cursor) and never skips the initial segment, for every inner cursor
and state; in particular on an empty buffer the run still yields exactly
one empty segment before iteration ends. -/
theorem split_first_next_never_skips :
    (∀ (b : Byte) (i : Cursor) (s : StateOf i),
        splitNext b i (splitInit i s, s)
          = (some (), ((⟨pitPos i (pit i s), false, none⟩ : SplitPit), s)))
    ∧ ∀ b : Byte, runSplit [] b = [[]] := by
  constructor
  · intro b i s
    have hadv : advance (Cursor.splitIter b i) (splitInit i s, s)
        = (none, (splitInit i s, s)) := by
      simp [advance, splitInit]
    have hloop : consumeC (Cursor.splitIter b i) (splitInit i s, s)
        = (splitInit i s, s) := by
      simp [consumeC, slice, loopConsume, hadv]
    simp only [splitNext, reachSplitByte, hloop]
    simp [splitInit]
  · intro b
    rfl

end ByteParser
